import Mathlib

/-!
Verification of the retrieval-and-context-assembly core of a RAG backend
(`backend/retriever.py`, with the query guard of `backend/rag_pipeline.py`).

Strings are modelled as `List Char` (Python strings indexed by code points),
Python floats as `ℚ` (the claims concern exact arithmetic properties of the
score mapping, not float rounding), and raised exceptions as `Except` errors.
-/

namespace Retriever

/-- Python's whitespace set for `str.strip()` (ASCII part). -/
def isPySpace (c : Char) : Bool :=
  c = ' ' || c = '\t' || c = '\n' || c = '\r' || c = '\x0b' || c = '\x0c'

/-- Python `s.strip()`: drop leading and trailing whitespace. -/
def pyStrip (s : List Char) : List Char :=
  ((s.dropWhile isPySpace).reverse.dropWhile isPySpace).reverse

/-- Python `s.split(sep)` for a one-character separator: always returns a
non-empty list of (possibly empty) fields. -/
def pySplit (sep : Char) : List Char → List (List Char)
  | [] => [[]]
  | c :: cs =>
    match pySplit sep cs with
    | [] => [[]]
    | h :: t => if c = sep then [] :: h :: t else (c :: h) :: t

/-- Python `s.replace("\\", "/")`. -/
def replaceBackslash (s : List Char) : List Char :=
  s.map (fun c => if c = '\\' then '/' else c)

/-- Python `lst[-1]` on a non-empty list (`split` never returns an empty
list; the `[]` default is unreachable). -/
def lastD : List (List Char) → List Char
  | [] => []
  | [x] => x
  | _ :: x :: xs => lastD (x :: xs)

/-- `source_path.replace("\\", "/").split("/")[-1]` from `retrieve`
(retriever.py line 104). -/
def pyFilename (sourcePath : List Char) : List Char :=
  lastD (pySplit '/' (replaceBackslash sourcePath))

/-- Spec-side rendering of "the text after the last path separator, treating
both `/` and `\` as separators": the longest suffix containing no separator. -/
def filenameSpec (sourcePath : List Char) : List Char :=
  (sourcePath.reverse.takeWhile (fun c => !(c = '/' || c = '\\'))).reverse

/-- `float(max(0.0, 1.0 - raw_score / 2.0))` (retriever.py line 92):
the distance-to-similarity conversion. Only the lower end is clamped. -/
def similarity (rawDistance : ℚ) : ℚ :=
  max 0 (1 - rawDistance / 2)

/-- Python `round(x, 4)`: round to the nearest multiple of `1/10000`
(tie behaviour is immaterial to every claim below). -/
def round4 (q : ℚ) : ℚ :=
  (round (q * 10000) : ℚ) / 10000

/-- A document as returned by the vector store's similarity search:
`page_content` plus the metadata keys the retriever reads. -/
structure Doc where
  pageContent : List Char
  source : Option (List Char)
  startIndex : Option Nat
deriving DecidableEq, Repr

/-- Structured representation of one retrieved document chunk
(retriever.py lines 32–39). -/
structure RetrievedChunk where
  content : List Char
  filename : List Char
  sourcePath : List Char
  similarityScore : ℚ
  startIndex : Option Nat
deriving DecidableEq, Repr

/-- The chunk `retrieve` appends for a surviving `(doc, raw_score)` pair
(retriever.py lines 102–112). -/
def mkChunk (doc : Doc) (sim : ℚ) : RetrievedChunk :=
  let sourcePath := doc.source.getD ("unknown".toList)
  { content := doc.pageContent
    filename := pyFilename sourcePath
    sourcePath := sourcePath
    similarityScore := round4 sim
    startIndex := doc.startIndex }

/-- The filtering loop of `retrieve` (retriever.py lines 88–112): convert each
raw distance to a similarity, skip results below the threshold, and build
chunks in the order the index returned them. -/
def retrieveChunks (threshold : ℚ) : List (Doc × ℚ) → List RetrievedChunk
  | [] => []
  | (doc, rawScore) :: rest =>
    if similarity rawScore < threshold then retrieveChunks threshold rest
    else mkChunk doc (similarity rawScore) :: retrieveChunks threshold rest

/-- Error taxonomy of the retrieval path: `indexUnavailable` models the
`FileNotFoundError` of `_load_vector_store`, `invalidInput` the `ValueError`
of the pipeline's blank-query guard, `generic` any other exception. -/
inductive RagError where
  | invalidInput
  | indexUnavailable
  | generic
deriving DecidableEq, Repr

/-- `retrieve(query)` (retriever.py lines 72–120) as a function of the
observable inputs: whether the persisted store exists (`_load_vector_store`
raises `FileNotFoundError` when it does not), the query, the raw
`(document, distance)` results of the index search, and the configured
threshold. The query is passed to the index search only; `retrieve` itself
performs no validation on it. -/
def retrieve (storeExists : Bool) (query : List Char) (raw : List (Doc × ℚ))
    (threshold : ℚ) : Except RagError (List RetrievedChunk) :=
  if storeExists then
    let _ := query
    Except.ok (retrieveChunks threshold raw)
  else Except.error RagError.indexUnavailable

/-- The blank-query guard of the pipeline entry point `ask`
(rag_pipeline.py lines 158–159): `if not question.strip(): raise ValueError`.
Everything after the guard calls the LLM chain (an external collaborator), so
the model stops at the guard's outcome. -/
def askGuard (question : List Char) : Except RagError Unit :=
  if pyStrip question = [] then Except.error RagError.invalidInput
  else Except.ok ()

/-- `build_context` (retriever.py lines 123–134). -/
def build_context (chunks : List RetrievedChunk) : List Char :=
  if chunks = [] then "No relevant context found in the knowledge base.".toList
  else
    List.intercalate ("\n\n---\n\n".toList)
      (chunks.map (fun c => "[Source: ".toList ++ c.filename ++ "]\n".toList ++ c.content))

/-- One deduplicated source citation (the dict built at
retriever.py lines 147–155). -/
structure Citation where
  filename : List Char
  snippet : List Char
  similarityScore : ℚ
  startIndex : Option Nat
deriving DecidableEq, Repr

/-- `c.content[:350].strip() + ("…" if len(c.content) > 350 else "")`
(retriever.py line 150). -/
def snippetOf (content : List Char) : List Char :=
  pyStrip (content.take 350) ++ (if 350 < content.length then "…".toList else [])

/-- The citation dict emitted for a representative chunk
(retriever.py lines 147–155). -/
def mkCitation (c : RetrievedChunk) : Citation :=
  { filename := c.filename
    snippet := snippetOf c.content
    similarityScore := c.similarityScore
    startIndex := c.startIndex }

/-- One step of the `seen` dict update (retriever.py lines 143–145): a Python
dict in insertion order, where `seen[fn] = chunk` replaces the value in place
when the key exists (`chunk.similarity_score > seen[fn].similarity_score`)
and appends a new entry otherwise (`chunk.filename not in seen`). -/
def updateSeen (c : RetrievedChunk) : List RetrievedChunk → List RetrievedChunk
  | [] => [c]
  | r :: rest =>
    if r.filename = c.filename then
      (if r.similarityScore < c.similarityScore then c else r) :: rest
    else r :: updateSeen c rest

/-- `deduplicate_sources` (retriever.py lines 137–155). -/
def deduplicate_sources (chunks : List RetrievedChunk) : List Citation :=
  (chunks.foldl (fun seen c => updateSeen c seen) []).map mkCitation

/-- Concrete sample document used in witnesses and counterexamples. -/
def docA : Doc :=
  { pageContent := "Alpha content".toList
    source := some ("docs/doc1.md".toList)
    startIndex := some 0 }

/-- First chunk of the spec's deduplication scenario. -/
def chA : RetrievedChunk :=
  { content := "A".toList
    filename := "doc1.md".toList
    sourcePath := "doc1.md".toList
    similarityScore := 9/10
    startIndex := none }

/-- Second chunk of the spec's deduplication scenario (same file, higher score). -/
def chB : RetrievedChunk :=
  { content := "B".toList
    filename := "doc1.md".toList
    sourcePath := "doc1.md".toList
    similarityScore := 95/100
    startIndex := none }

/-- Third chunk of the spec's deduplication scenario (a different file). -/
def chC : RetrievedChunk :=
  { content := "C".toList
    filename := "doc2.md".toList
    sourcePath := "doc2.md".toList
    similarityScore := 7/10
    startIndex := none }

/-- A chunk whose short content carries leading whitespace. -/
def chWs : RetrievedChunk :=
  { content := " A".toList
    filename := "f".toList
    sourcePath := "f".toList
    similarityScore := 1
    startIndex := none }

/-! ### Helper lemmas about the score arithmetic -/

theorem round4_mono {q r : ℚ} (h : q ≤ r) : round4 q ≤ round4 r := by
  unfold round4
  have : round (q * 10000) ≤ round (r * 10000) := by
    rw [round_eq, round_eq]
    exact Int.floor_mono (by linarith)
  have h2 : ((round (q * 10000) : ℤ) : ℚ) ≤ ((round (r * 10000) : ℤ) : ℚ) := by
    exact_mod_cast this
  linarith

theorem abs_round4_sub (q : ℚ) : |round4 q - q| ≤ 1 / 20000 := by
  unfold round4
  have h := abs_sub_round (q * 10000)
  rw [abs_sub_comm] at h
  rw [abs_le] at h ⊢
  constructor <;> [linarith; linarith]

theorem round4_ge_of_ge {t q : ℚ} (h : t ≤ q) : t - 1 / 20000 ≤ round4 q := by
  have := (abs_le.mp (abs_round4_sub q)).1
  linarith

theorem similarity_anti {d d' : ℚ} (h : d ≤ d') : similarity d' ≤ similarity d := by
  unfold similarity
  exact max_le_max le_rfl (by linarith)

/-! ### Helper lemmas about `takeWhile` on a snoc list -/

theorem takeWhile_all {p : Char → Bool} {l : List Char} (h : ∀ a ∈ l, p a = true) :
    l.takeWhile p = l := by
  induction l with
  | nil => rfl
  | cons a l ih =>
    rw [List.takeWhile_cons, if_pos (h a (List.mem_cons_self a l)),
      ih fun b hb => h b (List.mem_cons_of_mem a hb)]

theorem takeWhile_app_neg {p : Char → Bool} {c : Char} (hc : p c = false) (l : List Char) :
    (l ++ [c]).takeWhile p = l.takeWhile p := by
  induction l with
  | nil => simp [List.takeWhile_cons, hc]
  | cons a l ih =>
    by_cases h : p a = true
    · simp only [List.cons_append, List.takeWhile_cons, if_pos h, ih]
    · simp only [List.cons_append, List.takeWhile_cons, if_neg h]

theorem takeWhile_app_pos {p : Char → Bool} {c : Char} {l : List Char}
    (h : ∀ a ∈ l, p a = true) (hc : p c = true) :
    (l ++ [c]).takeWhile p = l ++ [c] := by
  apply takeWhile_all
  intro a ha
  rcases List.mem_append.mp ha with h1 | h1
  · exact h a h1
  · rw [List.mem_singleton.mp h1]; exact hc

theorem takeWhile_app_stop {p : Char → Bool} {c : Char} {l : List Char}
    (h : ∃ a ∈ l, p a = false) :
    (l ++ [c]).takeWhile p = l.takeWhile p := by
  induction l with
  | nil => obtain ⟨a, ha, _⟩ := h; cases ha
  | cons a l ih =>
    by_cases hpa : p a = true
    · have hl : ∃ b ∈ l, p b = false := by
        obtain ⟨b, hb, hb2⟩ := h
        rcases List.mem_cons.mp hb with rfl | hb'
        · rw [hpa] at hb2; cases hb2
        · exact ⟨b, hb', hb2⟩
      simp only [List.cons_append, List.takeWhile_cons, if_pos hpa, ih hl]
    · simp only [List.cons_append, List.takeWhile_cons, if_neg hpa]

/-! ### `pySplit` and the last-path-segment refinement -/

theorem pySplit_ne_nil (sep : Char) (l : List Char) : pySplit sep l ≠ [] := by
  cases l with
  | nil => simp [pySplit]
  | cons c cs =>
    cases h : pySplit sep cs with
    | nil => simp [pySplit, h]
    | cons a t => by_cases hc : c = sep <;> simp [pySplit, h, hc]

theorem pySplit_of_not_mem {sep : Char} {l : List Char} (h : sep ∉ l) :
    pySplit sep l = [l] := by
  induction l with
  | nil => rfl
  | cons c cs ih =>
    have hc : ¬ c = sep := fun he => h (he ▸ List.mem_cons_self c cs)
    have hcs : sep ∉ cs := fun hm => h (List.mem_cons_of_mem c hm)
    simp [pySplit, ih hcs, hc]

theorem pySplit_singleton {sep : Char} {l h : List Char}
    (he : pySplit sep l = [h]) : h = l ∧ sep ∉ l := by
  induction l generalizing h with
  | nil =>
    simp only [pySplit, List.cons.injEq, and_true] at he
    exact ⟨he.symm, by simp⟩
  | cons c cs ih =>
    cases hq : pySplit sep cs with
    | nil => exact absurd hq (pySplit_ne_nil sep cs)
    | cons a t =>
      by_cases hc : c = sep
      · simp [pySplit, hq, hc] at he
      · simp only [pySplit, hq, if_neg hc, List.cons.injEq] at he
        obtain ⟨h1, h2⟩ := he
        obtain ⟨ha, hns⟩ := ih (h := a) (by rw [hq, h2])
        subst ha
        refine ⟨h1.symm, ?_⟩
        intro hm
        rcases List.mem_cons.mp hm with rfl | hm'
        · exact hc rfl
        · exact hns hm'

theorem lastD_pySplit (sep : Char) (l : List Char) :
    lastD (pySplit sep l) = (l.reverse.takeWhile (fun c => !(c = sep))).reverse := by
  induction l with
  | nil => rfl
  | cons c cs ih =>
    cases hq : pySplit sep cs with
    | nil => exact absurd hq (pySplit_ne_nil sep cs)
    | cons a t =>
      rw [List.reverse_cons]
      by_cases hc : c = sep
      · have hL : lastD (pySplit sep (c :: cs)) = lastD (pySplit sep cs) := by
          simp [pySplit, hq, hc, lastD]
        rw [hL, ih, takeWhile_app_neg (by rw [hc]; simp)]
      · by_cases hm : sep ∈ cs
        · cases t with
          | nil =>
            exact absurd (pySplit_singleton hq).2 (by simpa using hm)
          | cons t1 t2 =>
            have hL : lastD (pySplit sep (c :: cs)) = lastD (pySplit sep cs) := by
              simp [pySplit, hq, hc, lastD]
            rw [hL, ih, takeWhile_app_stop ⟨sep, by simpa using hm, by simp⟩]
        · have h1 : pySplit sep cs = [cs] := pySplit_of_not_mem hm
          have hL : lastD (pySplit sep (c :: cs)) = c :: cs := by
            simp [pySplit, h1, hc, lastD]
          have hall : ∀ x ∈ cs.reverse, (fun a => !decide (a = sep)) x = true := by
            intro x hx
            have hxs : x ≠ sep := fun he => hm (he ▸ List.mem_reverse.mp hx)
            simp [hxs]
          rw [hL, takeWhile_app_pos hall (by simp [hc])]
          simp

theorem pyFilename_eq_filenameSpec (path : List Char) :
    pyFilename path = filenameSpec path := by
  unfold pyFilename filenameSpec replaceBackslash
  rw [lastD_pySplit, ← List.map_reverse, List.takeWhile_map]
  have hpq : ((fun c => !(c = '/')) ∘ (fun c : Char => if c = '\\' then '/' else c)) =
      (fun c : Char => !(c = '/' || c = '\\')) := by
    funext a
    by_cases h1 : a = '\\' <;> simp [h1]
  rw [hpq]
  congr 1
  conv_rhs => rw [← List.map_id (List.takeWhile (fun c : Char => !(c = '/' || c = '\\')) path.reverse)]
  apply List.map_congr_left
  intro a ha
  have hq := List.mem_takeWhile_imp ha
  simp only [Bool.not_eq_true', Bool.or_eq_false_iff, decide_eq_false_iff_not] at hq
  simp [hq.2]

/-! ### Lemmas about the retrieval loop -/

theorem similarity_nonneg (d : ℚ) : 0 ≤ similarity d := by
  unfold similarity; exact le_max_left _ _

theorem mem_retrieveChunks {t : ℚ} {raw : List (Doc × ℚ)} {c : RetrievedChunk}
    (h : c ∈ retrieveChunks t raw) :
    ∃ p ∈ raw, ¬ similarity p.2 < t ∧ c = mkChunk p.1 (similarity p.2) := by
  induction raw with
  | nil => simp [retrieveChunks] at h
  | cons p rest ih =>
    obtain ⟨doc, d⟩ := p
    by_cases hc : similarity d < t
    · rw [retrieveChunks, if_pos hc] at h
      obtain ⟨q, hq, hq2⟩ := ih h
      exact ⟨q, List.mem_cons_of_mem _ hq, hq2⟩
    · rw [retrieveChunks, if_neg hc] at h
      rcases List.mem_cons.mp h with rfl | h'
      · exact ⟨(doc, d), List.mem_cons_self _ _, hc, rfl⟩
      · obtain ⟨q, hq, hq2⟩ := ih h'
        exact ⟨q, List.mem_cons_of_mem _ hq, hq2⟩

theorem retrieveChunks_sublist (t : ℚ) (raw : List (Doc × ℚ)) :
    List.Sublist (retrieveChunks t raw) (raw.map (fun p => mkChunk p.1 (similarity p.2))) := by
  induction raw with
  | nil => simp [retrieveChunks]
  | cons p rest ih =>
    obtain ⟨doc, d⟩ := p
    by_cases hc : similarity d < t
    · rw [retrieveChunks, if_pos hc, List.map_cons]
      exact ih.cons _
    · rw [retrieveChunks, if_neg hc, List.map_cons]
      exact ih.cons₂ _

theorem retrieveChunks_keep_all (raw : List (Doc × ℚ)) :
    (retrieveChunks 0 raw).length = raw.length := by
  induction raw with
  | nil => rfl
  | cons p rest ih =>
    obtain ⟨doc, d⟩ := p
    rw [retrieveChunks, if_neg (not_lt.mpr (similarity_nonneg d))]
    simp [ih]

theorem retrieveChunks_single {t : ℚ} {doc : Doc} {d : ℚ} (h : ¬ similarity d < t) :
    retrieveChunks t [(doc, d)] = [mkChunk doc (similarity d)] := by
  rw [retrieveChunks, if_neg h]
  rfl

/-! ### The `seen`-dict invariant of `deduplicate_sources` -/

/-- `r` is the chunk the `seen` dict holds for its filename group once the
whole input has been folded: it occurs in the input, every chunk before it
with the same filename scores strictly lower (so on ties the earlier chunk
wins), and no chunk of the same filename scores higher — i.e. `r` is the
first-seen maximum-score chunk of its group. -/
def IsGroupRep (chunks : List RetrievedChunk) (r : RetrievedChunk) : Prop :=
  ∃ pre post, chunks = pre ++ r :: post ∧
    (∀ c ∈ pre, c.filename = r.filename → c.similarityScore < r.similarityScore) ∧
    (∀ c ∈ chunks, c.filename = r.filename → c.similarityScore ≤ r.similarityScore)

/-- Invariant carried through the fold of `deduplicate_sources`: the `seen`
values have pairwise-distinct filenames, each value is the first-seen maximum
of its group among the processed prefix, and every processed filename is
present. -/
def SeenInv (processed seen : List RetrievedChunk) : Prop :=
  ((seen.map fun r => r.filename).Nodup) ∧
  (∀ r ∈ seen, IsGroupRep processed r) ∧
  (∀ c ∈ processed, c.filename ∈ seen.map fun r => r.filename)

theorem updateSeen_of_fresh {c : RetrievedChunk} {s : List RetrievedChunk}
    (h : ∀ r ∈ s, r.filename ≠ c.filename) : updateSeen c s = s ++ [c] := by
  induction s with
  | nil => rfl
  | cons r rest ih =>
    rw [updateSeen, if_neg (h r (List.mem_cons_self _ _)),
      ih fun x hx => h x (List.mem_cons_of_mem _ hx)]
    rfl

theorem updateSeen_of_found {c r : RetrievedChunk} {s1 s2 : List RetrievedChunk}
    (h1 : ∀ x ∈ s1, x.filename ≠ c.filename) (h2 : r.filename = c.filename) :
    updateSeen c (s1 ++ r :: s2) =
      s1 ++ (if r.similarityScore < c.similarityScore then c else r) :: s2 := by
  induction s1 with
  | nil => simp only [List.nil_append, updateSeen, if_pos h2]
  | cons x s1 ih =>
    rw [List.cons_append, updateSeen, if_neg (h1 x (List.mem_cons_self _ _)),
      ih fun y hy => h1 y (List.mem_cons_of_mem _ hy), List.cons_append]

theorem exists_first_group {c : RetrievedChunk} {s : List RetrievedChunk}
    (h : ¬ ∀ r ∈ s, r.filename ≠ c.filename) :
    ∃ s1 r s2, s = s1 ++ r :: s2 ∧ r.filename = c.filename ∧
      ∀ x ∈ s1, x.filename ≠ c.filename := by
  induction s with
  | nil => exact absurd (by simp) h
  | cons a s ih =>
    by_cases ha : a.filename = c.filename
    · exact ⟨[], a, s, rfl, ha, by simp⟩
    · have h' : ¬ ∀ r ∈ s, r.filename ≠ c.filename := by
        intro hall
        refine h fun r hr => ?_
        rcases List.mem_cons.mp hr with rfl | hr'
        · exact ha
        · exact hall r hr'
      obtain ⟨s1, r, s2, rfl, hr, hfirst⟩ := ih h'
      refine ⟨a :: s1, r, s2, rfl, hr, ?_⟩
      intro x hx
      rcases List.mem_cons.mp hx with rfl | hx'
      · exact ha
      · exact hfirst x hx'

theorem isGroupRep_extend {processed : List RetrievedChunk} {x c : RetrievedChunk}
    (h : IsGroupRep processed x) (hne : x.filename ≠ c.filename) :
    IsGroupRep (processed ++ [c]) x := by
  obtain ⟨pre, post, hd, he, hb⟩ := h
  refine ⟨pre, post ++ [c], by rw [hd]; simp, he, ?_⟩
  intro y hy hyfn
  rcases List.mem_append.mp hy with hy' | hy'
  · exact hb y hy' hyfn
  · rw [List.mem_singleton.mp hy'] at hyfn
    exact absurd hyfn.symm hne

theorem isGroupRep_new {processed : List RetrievedChunk} {c : RetrievedChunk}
    (hmax : ∀ y ∈ processed, y.filename = c.filename →
      y.similarityScore < c.similarityScore) :
    IsGroupRep (processed ++ [c]) c := by
  refine ⟨processed, [], rfl, hmax, ?_⟩
  intro y hy hyfn
  rcases List.mem_append.mp hy with hy' | hy'
  · exact le_of_lt (hmax y hy' hyfn)
  · rw [List.mem_singleton.mp hy']

theorem seenInv_step {processed s : List RetrievedChunk} (c : RetrievedChunk)
    (h : SeenInv processed s) : SeenInv (processed ++ [c]) (updateSeen c s) := by
  obtain ⟨hnd, hrep, hcov⟩ := h
  by_cases hfresh : ∀ r ∈ s, r.filename ≠ c.filename
  · rw [updateSeen_of_fresh hfresh]
    have hnotproc : ∀ x ∈ processed, x.filename ≠ c.filename := by
      intro x hx hfn
      obtain ⟨r', hr', hr'eq⟩ := List.mem_map.mp (hcov x hx)
      exact hfresh r' hr' (by rw [hr'eq, hfn])
    refine ⟨?_, ?_, ?_⟩
    · rw [List.map_append, List.nodup_append]
      refine ⟨hnd, by simp, ?_⟩
      intro a ha hb
      obtain ⟨r', hr', hr'eq⟩ := List.mem_map.mp ha
      rw [List.mem_singleton.mp hb] at hr'eq
      exact hfresh r' hr' hr'eq
    · intro r hr
      rcases List.mem_append.mp hr with hr' | hr'
      · exact isGroupRep_extend (hrep r hr') (hfresh r hr')
      · rw [List.mem_singleton.mp hr']
        exact isGroupRep_new fun y hy hyfn => absurd hyfn (hnotproc y hy)
    · intro x hx
      rw [List.map_append]
      rcases List.mem_append.mp hx with hx' | hx'
      · exact List.mem_append_left _ (hcov x hx')
      · rw [List.mem_singleton.mp hx']
        exact List.mem_append_right _ (by simp)
  · obtain ⟨s1, r, s2, rfl, hrfn, hfirst⟩ := exists_first_group hfresh
    have hrmem : r ∈ s1 ++ r :: s2 := by simp
    obtain ⟨pre, post, hdecomp, hearlier, hbound⟩ := hrep r hrmem
    have hrchunks : ∀ y ∈ processed, y.filename = r.filename →
        y.similarityScore ≤ r.similarityScore := hbound
    have hs2 : ∀ x ∈ s2, x.filename ≠ c.filename := by
      have hnd2 : (r.filename :: s2.map fun x => x.filename).Nodup :=
        (List.nodup_append.mp (by simpa using hnd)).2.1
      intro x hx hfn
      exact (List.nodup_cons.mp hnd2).1
        (List.mem_map.mpr ⟨x, hx, by rw [hfn, ← hrfn]⟩)
    by_cases hlt : r.similarityScore < c.similarityScore
    · rw [updateSeen_of_found hfirst hrfn, if_pos hlt]
      have hmapeq : ((s1 ++ c :: s2).map fun x => x.filename) =
          ((s1 ++ r :: s2).map fun x => x.filename) := by
        simp [← hrfn]
      refine ⟨by rw [hmapeq]; exact hnd, ?_, ?_⟩
      · intro x hx
        rcases List.mem_append.mp hx with hx1 | hx2
        · exact isGroupRep_extend (hrep x (List.mem_append_left _ hx1)) (hfirst x hx1)
        · rcases List.mem_cons.mp hx2 with rfl | hx3
          · refine isGroupRep_new fun y hy hyfn => ?_
            exact lt_of_le_of_lt (hrchunks y hy (by rw [hyfn, ← hrfn])) hlt
          · exact isGroupRep_extend
              (hrep x (List.mem_append_right _ (List.mem_cons_of_mem _ hx3)))
              (hs2 x hx3)
      · intro y hy
        rcases List.mem_append.mp hy with hy' | hy'
        · rw [hmapeq]; exact hcov y hy'
        · rw [List.mem_singleton.mp hy']
          simp
    · rw [updateSeen_of_found hfirst hrfn, if_neg hlt]
      refine ⟨hnd, ?_, ?_⟩
      · intro x hx
        rcases List.mem_append.mp hx with hx1 | hx2
        · exact isGroupRep_extend (hrep x (List.mem_append_left _ hx1)) (hfirst x hx1)
        · rcases List.mem_cons.mp hx2 with rfl | hx3
          · refine ⟨pre, post ++ [c], by rw [hdecomp]; simp, hearlier, ?_⟩
            intro y hy hyfn
            rcases List.mem_append.mp hy with hy' | hy'
            · exact hbound y hy' hyfn
            · rw [List.mem_singleton.mp hy']
              exact le_of_not_lt hlt
          · exact isGroupRep_extend
              (hrep x (List.mem_append_right _ (List.mem_cons_of_mem _ hx3)))
              (hs2 x hx3)
      · intro y hy
        rcases List.mem_append.mp hy with hy' | hy'
        · exact hcov y hy'
        · rw [List.mem_singleton.mp hy', ← hrfn]
          simp

theorem dedup_fold_inv (chunks : List RetrievedChunk) :
    ∀ processed s, SeenInv processed s →
      SeenInv (processed ++ chunks) (chunks.foldl (fun seen c => updateSeen c seen) s) := by
  induction chunks with
  | nil => intro processed s h; simpa using h
  | cons c cs ih =>
    intro processed s h
    rw [List.foldl_cons]
    have h3 := ih (processed ++ [c]) (updateSeen c s) (seenInv_step c h)
    simpa [List.append_assoc] using h3

theorem dedup_seen_inv (chunks : List RetrievedChunk) :
    SeenInv chunks (chunks.foldl (fun seen c => updateSeen c seen) []) := by
  have h0 : SeenInv [] [] := ⟨by simp, by simp, by simp⟩
  simpa using dedup_fold_inv chunks [] [] h0

theorem mem_dedup {chunks : List RetrievedChunk} {cit : Citation}
    (h : cit ∈ deduplicate_sources chunks) :
    ∃ r, IsGroupRep chunks r ∧ cit = mkCitation r := by
  unfold deduplicate_sources at h
  obtain ⟨r, hr, rfl⟩ := List.mem_map.mp h
  exact ⟨r, (dedup_seen_inv chunks).2.1 r hr, rfl⟩

theorem dedup_filenames_nodup (chunks : List RetrievedChunk) :
    ((deduplicate_sources chunks).map fun cit => cit.filename).Nodup := by
  unfold deduplicate_sources
  rw [List.map_map]
  have heq : ((fun cit : Citation => cit.filename) ∘ mkCitation) =
      (fun r : RetrievedChunk => r.filename) := by
    funext r; rfl
  rw [heq]
  exact (dedup_seen_inv chunks).1

theorem retrieveChunks_all_below {t : ℚ} {raw : List (Doc × ℚ)}
    (h : ∀ p ∈ raw, similarity p.2 < t) : retrieveChunks t raw = [] := by
  induction raw with
  | nil => rfl
  | cons p rest ih =>
    obtain ⟨doc, d⟩ := p
    rw [retrieveChunks, if_pos (h (doc, d) (List.mem_cons_self _ _))]
    exact ih fun q hq => h q (List.mem_cons_of_mem _ hq)

theorem intercalate_cons_start (sep x : List Char) (xs : List (List Char)) :
    ∃ rest, List.intercalate sep (x :: xs) = x ++ rest := by
  cases xs with
  | nil => exact ⟨[], by simp [List.intercalate]⟩
  | cons y ys =>
    refine ⟨sep ++ List.intercalate sep (y :: ys), ?_⟩
    simp [List.intercalate, List.intersperse]

/-! ### The claims -/

/-- C1 (amended): for `rawDistance ≥ 0` the conversion is the clamped linear
map: it is monotonically non-increasing everywhere, equals 1 at 0, equals 0
for `rawDistance ≥ 2`, is never negative, and stays `≤ 1` whenever
`rawDistance ≥ 0`; for negative raw distances only the lower clamp applies
and the result exceeds 1. -/
theorem c1_similarity_clamp (d d' : ℚ) :
    (d ≤ d' → similarity d' ≤ similarity d) ∧
    similarity 0 = 1 ∧
    (2 ≤ d → similarity d = 0) ∧
    0 ≤ similarity d ∧
    (0 ≤ d → similarity d ≤ 1) ∧
    (d < 0 → 1 < similarity d) := by
  refine ⟨fun h => similarity_anti h, by norm_num [similarity], fun h => ?_,
    similarity_nonneg d, fun h => ?_, fun h => ?_⟩
  · unfold similarity
    exact max_eq_left (by linarith)
  · unfold similarity
    exact max_le (by norm_num) (by linarith)
  · unfold similarity
    calc (1:ℚ) < 1 - d/2 := by linarith
      _ ≤ max 0 (1 - d/2) := le_max_right _ _

/-- C1 counterexample: at rawDistance = −2 the code's conversion
`max(0, 1 − d/2)` yields 2, outside [0,1] — there is no upper clamp. -/
theorem c1_counterexample : similarity (-2) = 2 ∧ ¬ similarity (-2) ≤ 1 := by
  constructor <;> norm_num [similarity]

/-- Witness instantiating every hypothesis of `c1_similarity_clamp`. -/
theorem c1_witness :
    similarity 3 ≤ similarity 1 ∧ similarity 2 = 0 ∧ similarity 1 ≤ 1 ∧
      1 < similarity (-1) :=
  ⟨(c1_similarity_clamp 1 3).1 (by norm_num),
   (c1_similarity_clamp 2 0).2.2.1 (by norm_num),
   (c1_similarity_clamp 1 0).2.2.2.2.1 (by norm_num),
   (c1_similarity_clamp (-1) 0).2.2.2.2.2 (by norm_num)⟩

/-- C7: the filename stored by `retrieve` is the text after the last path
separator (`/` or `\`) of the document's source metadata, and is the literal
"unknown" when that metadata key is absent. -/
theorem c7_filename_derivation (doc : Doc) (sim : ℚ) :
    (mkChunk doc sim).filename =
      filenameSpec (doc.source.getD ("unknown".toList)) ∧
    (doc.source = none → (mkChunk doc sim).filename = "unknown".toList) := by
  constructor
  · exact pyFilename_eq_filenameSpec _
  · intro h
    show pyFilename ((doc.source.getD ("unknown".toList))) = "unknown".toList
    rw [h]
    rfl

/-- Witness for `c7_filename_derivation` at a metadata-less document. -/
theorem c7_witness :
    (mkChunk { pageContent := "x".toList, source := none, startIndex := none }
        1).filename = "unknown".toList :=
  (c7_filename_derivation
    { pageContent := "x".toList, source := none, startIndex := none } 1).2 rfl

/-- C5: on an empty chunk list `build_context` returns the fixed sentinel,
which does not begin with the chunk-block prefix "[Source: "; on a non-empty
list it returns the "[Source: <filename>]\n<content>" blocks joined by
"\n\n---\n\n" in input order (and hence begins with the prefix). -/
theorem c5_build_context (chunks : List RetrievedChunk) :
    build_context [] = "No relevant context found in the knowledge base.".toList ∧
    (build_context []).take 9 ≠ "[Source: ".toList ∧
    (chunks ≠ [] →
      build_context chunks =
        List.intercalate ("\n\n---\n\n".toList)
          (chunks.map fun c =>
            "[Source: ".toList ++ c.filename ++ "]\n".toList ++ c.content) ∧
      (build_context chunks).take 9 = "[Source: ".toList) := by
  refine ⟨by rw [build_context, if_pos rfl], by decide, fun h => ⟨?_, ?_⟩⟩
  · rw [build_context, if_neg h]
  · rw [build_context, if_neg h]
    cases chunks with
    | nil => exact absurd rfl h
    | cons c cs =>
      rw [List.map_cons]
      obtain ⟨rest, hr⟩ := intercalate_cons_start ("\n\n---\n\n".toList)
        ("[Source: ".toList ++ c.filename ++ "]\n".toList ++ c.content)
        (cs.map fun c => "[Source: ".toList ++ c.filename ++ "]\n".toList ++ c.content)
      rw [hr]
      simp only [List.append_assoc]
      rw [show (9:ℕ) = ("[Source: ".toList).length from rfl, List.take_left]

/-- Witness for the non-empty branch of `c5_build_context`. -/
theorem c5_witness :
    build_context [chA] =
      List.intercalate ("\n\n---\n\n".toList)
        ([chA].map fun c =>
          "[Source: ".toList ++ c.filename ++ "]\n".toList ++ c.content) ∧
    (build_context [chA]).take 9 = "[Source: ".toList :=
  (c5_build_context [chA]).2.2 (by simp)

/-- C6 counterexample: a 2-character content " A" (well under the 350-char
limit) yields snippet "A" — `deduplicate_sources` strips edge whitespace, so
the snippet is NOT the content unchanged. -/
theorem c6_counterexample :
    (deduplicate_sources [chWs]).map (fun cit => cit.snippet) = ["A".toList] ∧
    chWs.content.length ≤ 350 ∧
    "A".toList ≠ chWs.content := by
  refine ⟨by decide, by decide, by decide⟩

/-- C6 (amended): each citation's snippet is the representative's content
truncated to 350 characters and stripped of edge whitespace, with "…"
appended exactly when truncation occurred; it equals the content unchanged
when the content is at most 350 characters AND has no edge whitespace. -/
theorem c6_snippet (chunks : List RetrievedChunk) (cit : Citation)
    (h : cit ∈ deduplicate_sources chunks) :
    ∃ r, IsGroupRep chunks r ∧
      cit.snippet = pyStrip (r.content.take 350) ++
        (if 350 < r.content.length then "…".toList else []) ∧
      (r.content.length ≤ 350 → pyStrip r.content = r.content →
        cit.snippet = r.content) := by
  obtain ⟨r, hrep, rfl⟩ := mem_dedup h
  refine ⟨r, hrep, rfl, ?_⟩
  intro hlen hstrip
  show snippetOf r.content = r.content
  unfold snippetOf
  rw [if_neg (by omega), List.take_of_length_le hlen, hstrip, List.append_nil]

/-- Witness for `c6_snippet` on a singleton input. -/
theorem c6_witness :
    ∃ r, IsGroupRep [chWs] r ∧
      (mkCitation chWs).snippet = pyStrip (r.content.take 350) ++
        (if 350 < r.content.length then "…".toList else []) ∧
      (r.content.length ≤ 350 → pyStrip r.content = r.content →
        (mkCitation chWs).snippet = r.content) :=
  c6_snippet [chWs] (mkCitation chWs) (List.mem_singleton_self _)

/-- C8 counterexample: `retrieve` succeeds on a whitespace-only query — it
performs no query validation at all. -/
theorem c8_counterexample :
    retrieve true (" ".toList) [(docA, 1)] 0 ≠
      Except.error RagError.invalidInput ∧
    retrieve true (" ".toList) [(docA, 1)] 0 =
      Except.ok (retrieveChunks 0 [(docA, 1)]) ∧
    pyStrip (" ".toList) = [] := by
  refine ⟨fun h => ?_, rfl, by decide⟩
  rw [show retrieve true (" ".toList) [(docA, 1)] 0 =
    Except.ok (retrieveChunks 0 [(docA, 1)]) from rfl] at h
  exact Except.noConfusion h

/-- C8 (amended): the blank-query guard lives in the pipeline entry point
(`ask` in rag_pipeline.py), which fails with the client error exactly when
the query is empty after stripping whitespace; `retrieve` itself never
raises that error. -/
theorem c8_query_guard (q : List Char) :
    (askGuard q = Except.error RagError.invalidInput ↔ pyStrip q = []) ∧
    ∀ (se : Bool) (raw : List (Doc × ℚ)) (t : ℚ),
      retrieve se q raw t ≠ Except.error RagError.invalidInput := by
  constructor
  · constructor
    · intro h
      by_cases hq : pyStrip q = []
      · exact hq
      · rw [askGuard, if_neg hq] at h
        exact Except.noConfusion h
    · intro h
      rw [askGuard, if_pos h]
  · intro se raw t h
    cases se
    · simp [retrieve] at h
    · simp [retrieve] at h

/-- Witness for `c8_query_guard` on a whitespace-only query. -/
theorem c8_witness :
    askGuard ("  ".toList) = Except.error RagError.invalidInput ∧
    retrieve true ("  ".toList) [] 0 ≠ Except.error RagError.invalidInput :=
  ⟨(c8_query_guard ("  ".toList)).1.mpr (by decide),
   (c8_query_guard ("  ".toList)).2 true [] 0⟩

/-- C9: with the persisted store absent `retrieve` fails with the specific
index-unavailable error (never the generic one); with the store present and
every result below the threshold it returns the empty list, raising
nothing. -/
theorem c9_index_unavailable (q : List Char) (t : ℚ) (raw : List (Doc × ℚ)) :
    retrieve false q raw t = Except.error RagError.indexUnavailable ∧
    retrieve false q raw t ≠ Except.error RagError.generic ∧
    ((∀ p ∈ raw, similarity p.2 < t) → retrieve true q raw t = Except.ok []) := by
  refine ⟨rfl, by simp [retrieve], fun h => ?_⟩
  show Except.ok (retrieveChunks t raw) = Except.ok ([] : List RetrievedChunk)
  rw [retrieveChunks_all_below h]

/-- Witness for `c9_index_unavailable`: a singleton result at distance 3
(similarity 0) is below threshold 1/2, so `retrieve` returns `ok []`. -/
theorem c9_witness :
    retrieve false ("q".toList) [(docA, 3)] (1/2) =
      Except.error RagError.indexUnavailable ∧
    retrieve true ("q".toList) [(docA, 3)] (1/2) = Except.ok [] :=
  ⟨(c9_index_unavailable ("q".toList) (1/2) [(docA, 3)]).1,
   (c9_index_unavailable ("q".toList) (1/2) [(docA, 3)]).2.2 (by
    intro p hp
    rw [List.mem_singleton.mp hp]
    show similarity 3 < 1/2
    norm_num [similarity])⟩

/-- C4: `retrieve` returns at most as many chunks as the index produced
(hence at most k), the output is a sublist of the per-result chunks in the
index's order (no re-sorting), and if the index's distances are ascending
(descending similarity) the output scores are non-increasing. -/
theorem c4_order (t : ℚ) (raw : List (Doc × ℚ)) (k : ℕ) (hk : raw.length ≤ k) :
    (retrieveChunks t raw).length ≤ k ∧
    List.Sublist (retrieveChunks t raw)
      (raw.map fun p => mkChunk p.1 (similarity p.2)) ∧
    (List.Pairwise (fun p q : Doc × ℚ => p.2 ≤ q.2) raw →
      List.Pairwise
        (fun a b : RetrievedChunk => b.similarityScore ≤ a.similarityScore)
        (retrieveChunks t raw)) := by
  refine ⟨?_, retrieveChunks_sublist t raw, fun hsorted => ?_⟩
  · calc (retrieveChunks t raw).length
        ≤ (raw.map fun p => mkChunk p.1 (similarity p.2)).length :=
          (retrieveChunks_sublist t raw).length_le
      _ = raw.length := List.length_map _ _
      _ ≤ k := hk
  · refine List.Pairwise.sublist (retrieveChunks_sublist t raw) ?_
    rw [List.pairwise_map]
    refine hsorted.imp ?_
    intro p q hpq
    show round4 (similarity q.2) ≤ round4 (similarity p.2)
    exact round4_mono (similarity_anti hpq)

/-- Witness for `c4_order` on a singleton result list with k = 1. -/
theorem c4_witness :
    (retrieveChunks 0 [(docA, 1)]).length ≤ 1 ∧
    List.Sublist (retrieveChunks 0 [(docA, 1)])
      ([(docA, (1:ℚ))].map fun p => mkChunk p.1 (similarity p.2)) ∧
    List.Pairwise
      (fun a b : RetrievedChunk => b.similarityScore ≤ a.similarityScore)
      (retrieveChunks 0 [(docA, 1)]) :=
  ⟨(c4_order 0 [(docA, 1)] 1 (by simp)).1,
   (c4_order 0 [(docA, 1)] 1 (by simp)).2.1,
   (c4_order 0 [(docA, 1)] 1 (by simp)).2.2 (by simp)⟩

/-- C2 counterexample: with threshold 0.12341 an index result of raw
distance 1.75316 has unrounded similarity 0.12342 ≥ threshold, so it
survives, but its stored score is rounded to 0.1234 < threshold: the
returned chunk's similarityScore is strictly below the threshold. -/
theorem c2_counterexample :
    (retrieveChunks (12341/100000) [(docA, 43829/25000)]).map
        (fun c => c.similarityScore) = [1234/10000] ∧
    (1234/10000 : ℚ) < 12341/100000 := by
  have hs : similarity (43829/25000) = 6171/50000 := by
    unfold similarity
    rw [max_eq_right (by norm_num)]
    norm_num
  have hnl : ¬ similarity (43829/25000) < 12341/100000 := by
    rw [hs]; norm_num
  have hr : round4 (6171/50000) = 1234/10000 := by
    unfold round4
    rw [round_eq]
    norm_num
  refine ⟨?_, by norm_num⟩
  rw [retrieveChunks_single hnl]
  simp only [List.map_cons, List.map_nil]
  rw [show (mkChunk docA (similarity (43829/25000))).similarityScore =
    round4 (similarity (43829/25000)) from rfl, hs, hr]

/-- C2 (amended): the threshold test is applied to the UNROUNDED similarity,
so every surviving chunk's stored (4-dp-rounded) score is at least
threshold − 1/20000 (equality with the threshold itself holds only when the
threshold is a multiple of 1/10000); a threshold of 0 keeps every result the
index returned. -/
theorem c2_threshold (t : ℚ) (raw : List (Doc × ℚ)) :
    (∀ c ∈ retrieveChunks t raw, t - 1/20000 ≤ c.similarityScore) ∧
    (retrieveChunks 0 raw).length = raw.length := by
  refine ⟨?_, retrieveChunks_keep_all raw⟩
  intro c hc
  obtain ⟨p, hp, hnl, rfl⟩ := mem_retrieveChunks hc
  show t - 1/20000 ≤ round4 (similarity p.2)
  exact round4_ge_of_ge (not_lt.mp hnl)

/-- Witness for `c2_threshold` on a singleton result at threshold 0. -/
theorem c2_witness :
    (0:ℚ) - 1/20000 ≤ (mkChunk docA (similarity 1)).similarityScore ∧
    (retrieveChunks 0 [(docA, 1)]).length = 1 :=
  ⟨(c2_threshold 0 [(docA, 1)]).1 (mkChunk docA (similarity 1)) (by
      rw [retrieveChunks_single (not_lt.mpr (similarity_nonneg 1))]
      exact List.mem_singleton_self _),
   (c2_threshold 0 [(docA, 1)]).2⟩

/-- C10: every returned chunk stores `round4(max(0, 1 − d/2))` for the raw
distance `d` of some index result whose UNROUNDED similarity cleared the
threshold; the stored score is a multiple of 1/10000 and differs from the
value compared against the threshold by at most 1/20000 = 0.00005. -/
theorem c10_rounded_scores (t : ℚ) (raw : List (Doc × ℚ)) (c : RetrievedChunk)
    (h : c ∈ retrieveChunks t raw) :
    ∃ p ∈ raw, t ≤ similarity p.2 ∧
      c.similarityScore = round4 (similarity p.2) ∧
      (∃ n : ℤ, c.similarityScore = (n : ℚ) / 10000) ∧
      |c.similarityScore - similarity p.2| ≤ 1/20000 := by
  obtain ⟨p, hp, hnl, rfl⟩ := mem_retrieveChunks h
  exact ⟨p, hp, not_lt.mp hnl, rfl,
    ⟨round (similarity p.2 * 10000), rfl⟩, abs_round4_sub _⟩

/-- Witness for `c10_rounded_scores` on a singleton result at distance 0. -/
theorem c10_witness :
    ∃ p ∈ [(docA, (0:ℚ))], (0:ℚ) ≤ similarity p.2 ∧
      (mkChunk docA (similarity 0)).similarityScore = round4 (similarity p.2) ∧
      (∃ n : ℤ, (mkChunk docA (similarity 0)).similarityScore = (n : ℚ) / 10000) ∧
      |(mkChunk docA (similarity 0)).similarityScore - similarity p.2| ≤ 1/20000 :=
  c10_rounded_scores 0 [(docA, 0)] (mkChunk docA (similarity 0)) (by
    rw [retrieveChunks_single (not_lt.mpr (similarity_nonneg 0))]
    exact List.mem_singleton_self _)

/-- C3: `deduplicate_sources` emits pairwise-distinct filenames (at most one
citation per filename), and every citation is the image of a chunk `r` that
is the first-seen maximum of its filename group: `r` occurs in the input, no
same-filename chunk scores higher, and every same-filename chunk BEFORE `r`
scores strictly lower (ties keep the earlier chunk); the citation carries
`r`'s score, which is therefore the group maximum. -/
theorem c3_deduplicate (chunks : List RetrievedChunk) :
    ((deduplicate_sources chunks).map fun cit => cit.filename).Nodup ∧
    ∀ cit ∈ deduplicate_sources chunks,
      ∃ r, IsGroupRep chunks r ∧ cit = mkCitation r ∧
        cit.similarityScore = r.similarityScore := by
  refine ⟨dedup_filenames_nodup chunks, fun cit hc => ?_⟩
  obtain ⟨r, hrep, rfl⟩ := mem_dedup hc
  exact ⟨r, hrep, rfl, rfl⟩

/-- Witness for `c3_deduplicate` on the spec's scenario: chunks A (0.9) and
B (0.95) share doc1.md, C (0.7) is doc2.md; the doc1.md citation is B's. -/
theorem c3_witness :
    ∃ r, IsGroupRep [chA, chB, chC] r ∧ mkCitation chB = mkCitation r ∧
      (mkCitation chB).similarityScore = r.similarityScore :=
  (c3_deduplicate [chA, chB, chC]).2 (mkCitation chB) (by
    have h1 : updateSeen chB (updateSeen chA []) = [chB] := by
      show updateSeen chB [chA] = [chB]
      unfold updateSeen
      rw [if_pos (show chA.filename = chB.filename from rfl),
        if_pos (show chA.similarityScore < chB.similarityScore from by
          show (9/10:ℚ) < 95/100; norm_num)]
    have h2 : updateSeen chC [chB] = [chB, chC] := by
      unfold updateSeen
      rw [if_neg (show ¬ chB.filename = chC.filename from by decide)]
      rfl
    have h3 : deduplicate_sources [chA, chB, chC] =
        [mkCitation chB, mkCitation chC] := by
      unfold deduplicate_sources
      simp only [List.foldl_cons, List.foldl_nil]
      rw [h1, h2]
      rfl
    rw [h3]
    exact List.mem_cons_self _ _)

end Retriever
